import Mathlib

/-!
Shallow embedding of the EPUB CFI core of this repository
(`src/epub/epubcfi.ts`): tokenizer, step parser, serializer, range
builder, and the DOM tree indexer.

Modelling conventions:
* JavaScript numbers are idealised as `JNum`: either `NaN` or an exact
  rational.  The embedded code only produces integers and finite
  decimals, so the idealisation is faithful for every value the claims
  touch.
* JavaScript exceptions (`TypeError` on property access of
  `undefined`/`null`, `Array.from(undefined)`, ...) are modelled by
  `Option`: a result of `none` at the outer level means the original
  code throws.
* DOM nodes are modelled by the pure tree `XNode`; node identity
  (JavaScript `===` on nodes) is modelled by the position (`Pos`, the
  chain of raw child indices from the document element).
* JavaScript string `.length` is the number of UTF-16 code units; for
  the basic-plane strings handled here it coincides with the character
  count used by the model.
-/

set_option maxRecDepth 8000
set_option maxHeartbeats 1000000

namespace EpubCfi

/-- JavaScript numbers as produced by `parseInt`/`parseFloat` in the CFI
code: `NaN` or an exact rational value. -/
inductive JNum where
  | nan
  | q (v : ℚ)
  deriving DecidableEq, Repr

/-- Numeric value of a digit string (the tokenizer only accumulates
decimal digits for `parseInt`). -/
def digitsToNat (l : List Char) : ℕ :=
  l.foldl (fun a c => 10 * a + (c.toNat - 48)) 0

/-- JavaScript `parseInt` on the digit-only accumulator strings the
tokenizer builds: `NaN` on the empty string. -/
def jsParseInt (s : String) : JNum :=
  if s.isEmpty then .nan else .q (digitsToNat s.toList)

/-- JavaScript `parseFloat` on the digit-and-dot accumulator strings the
tokenizer builds: longest numeric prefix, `NaN` when there are no digits
before a second dot. -/
def jsParseFloat (s : String) : JNum :=
  let ds := s.toList
  let d1 := ds.takeWhile (·.isDigit)
  let rest := ds.drop d1.length
  let d2 := if rest.head? = some '.' then (rest.drop 1).takeWhile (·.isDigit) else []
  if d1.isEmpty ∧ d2.isEmpty then .nan
  else .q ((digitsToNat d1 : ℚ) + (digitsToNat d2 : ℚ) / (10 : ℚ) ^ d2.length)

/-- Tokens of the CFI grammar, mirroring `TToken`: a bare tag (`!`,`,`),
a tag with a numeric payload (`/`,`:`,`~`,`@`), or a tag with a string
payload (`[`, `;name`). -/
inductive TToken where
  | sym (t : String)
  | num (t : String) (v : JNum)
  | str (t : String) (v : String)
  deriving DecidableEq, Repr

/-- Tag of a token (the first component of the `TToken` array). -/
def tokTag : TToken → String
  | .sym t => t
  | .num t _ => t
  | .str t _ => t

/-- Mutable state of the tokenizer loop. -/
structure TkState where
  tokens : List TToken := []
  state : Option String := none
  escape : Bool := false
  value : String := ""
  deriving Repr

/-- The tokenizer's `push`: emit a token, reset `state` and `value`
(the `escape` flag is left as is, as in the source). -/
def tkPush (s : TkState) (t : TToken) : TkState :=
  { s with tokens := s.tokens ++ [t], state := none, value := "" }

/-- The tokenizer's `cat`: append the character (the end-of-input
sentinel appends nothing) and clear the escape flag. -/
def tkCat (s : TkState) (ch : Option Char) : TkState :=
  { s with value := match ch with | some c => s.value.push c | none => s.value,
           escape := false }

/-- Test of `isNumberReg` (`/\d/`) against the current character; the
end-of-input sentinel `''` never matches. -/
def isDigitO : Option Char → Bool
  | some c => c.isDigit
  | none => false

/-- Character equality against the loop character (the sentinel equals
no character). -/
def ceq (oc : Option Char) (c : Char) : Bool := oc = some c

/-- State-machine block of the tokenizer loop body; the boolean is true
when the original loop executes `continue` (skipping the trailing
state-switch on special characters). -/
def tkMain (s : TkState) (ch : Option Char) : TkState × Bool :=
  match s.state with
  | some "!" => (tkPush s (.sym "!"), false)
  | some "," => (tkPush s (.sym ","), false)
  | some st =>
    if st = "/" ∨ st = ":" then
      if isDigitO ch then (tkCat s ch, true)
      else (tkPush s (.num st (jsParseInt s.value)), false)
    else if st = "~" then
      if isDigitO ch || ceq ch '.' then (tkCat s ch, true)
      else (tkPush s (.num "~" (jsParseFloat s.value)), false)
    else if st = "@" then
      if ceq ch ':' then ({ tkPush s (.num "@" (jsParseFloat s.value)) with state := some "@" }, true)
      else if isDigitO ch || ceq ch '.' then (tkCat s ch, true)
      else (tkPush s (.num "@" (jsParseFloat s.value)), false)
    else if st = "[" then
      (if ceq ch ';' ∧ ¬s.escape then { tkPush s (.str "[" s.value) with state := some ";" }
       else if ceq ch ',' ∧ ¬s.escape then { tkPush s (.str "[" s.value) with state := some "[" }
       else if ceq ch ']' ∧ ¬s.escape then tkPush s (.str "[" s.value)
       else tkCat s ch, true)
    else if st.toList.head? = some ';' then
      (if ceq ch '=' ∧ ¬s.escape then { s with state := some (";" ++ s.value), value := "" }
       else if ceq ch ';' ∧ ¬s.escape then { tkPush s (.str st s.value) with state := some ";" }
       else if ceq ch ']' ∧ ¬s.escape then tkPush s (.str st s.value)
       else tkCat s ch, true)
    else (s, false)
  | none => (s, false)

/-- The special lead characters that switch the tokenizer state. -/
def specialCh (ch : Option Char) : Bool :=
  ceq ch '/' || ceq ch ':' || ceq ch '~' || ceq ch '@' || ceq ch '[' || ceq ch '!' || ceq ch ','

/-- One iteration of the tokenizer loop over one character (`none` is the
final `''` sentinel appended by the source). -/
def tkStep (s : TkState) (ch : Option Char) : TkState :=
  if ceq ch '^' ∧ ¬s.escape then { s with escape := true }
  else
    let m := tkMain s ch
    if m.2 then m.1
    else if specialCh ch then { m.1 with state := some (String.singleton (ch.getD ' ')) }
    else m.1

/-- JavaScript `String.prototype.trim` whitespace. -/
def jsWhitespace (c : Char) : Bool :=
  c = ' ' ∨ c = '\t' ∨ c = '\n' ∨ c = '\r' ∨ c = '\x0b' ∨ c = '\x0c' ∨
  c = '\u00A0' ∨ c = '\u1680' ∨ ('\u2000' ≤ c ∧ c ≤ '\u200A') ∨
  c = '\u2028' ∨ c = '\u2029' ∨ c = '\u202F' ∨ c = '\u205F' ∨ c = '\u3000' ∨ c = '\uFEFF'

/-- JavaScript `str.trim()`. -/
def jsTrim (s : String) : String :=
  (((s.toList.dropWhile jsWhitespace).reverse.dropWhile jsWhitespace).reverse).asString

/-- The tokenizer: fold the loop body over the trimmed characters plus
the `''` sentinel. -/
def tokenizer (str : String) : List TToken :=
  (((jsTrim str).toList.map some ++ [none]).foldl tkStep {}).tokens

/-- One step of a CFI path, mirroring `TPart`.  `none` models both
`null` and an absent (`undefined`) field. -/
structure TPart where
  index : JNum
  offset : Option JNum
  temporal : Option JNum := none
  spatial : Option (List JNum) := none
  side : Option String := none
  id : Option String := none
  text : Option (List String) := none
  deriving DecidableEq, Repr

/-- A fresh part as pushed by the parser for a Step token. -/
def newPart (v : JNum) : TPart := { index := v, offset := none }

/-- Mutate the last element of a list, as `parts[parts.length - 1]!` does;
`none` models the TypeError thrown when the list is empty. -/
def setLast (parts : List TPart) (f : TPart → TPart) : Option (List TPart) :=
  match parts.getLast? with
  | none => none
  | some l => some (parts.dropLast ++ [f l])

/-- One iteration of the parser loop: the accumulator is the parts list
and the `state` variable (the previous token's tag, except that text
assertions leave it untouched). -/
def parserStep (acc : List TPart × String) : TToken → Option (List TPart × String)
  | .num "/" v => some (acc.1 ++ [newPart v], "/")
  | .num ":" v => (setLast acc.1 fun l => { l with offset := some v }).map (·, ":")
  | .num "~" v => (setLast acc.1 fun l => { l with temporal := some v }).map (·, "~")
  | .num "@" v =>
      (setLast acc.1 fun l => { l with spatial := some ((l.spatial.getD []) ++ [v]) }).map (·, "@")
  | .str ";s" v => (setLast acc.1 fun l => { l with side := some v }).map (·, ";s")
  | .str "[" v =>
      if acc.2 = "/" ∧ v ≠ "" then
        (setLast acc.1 fun l => { l with id := some v }).map (·, "[")
      else
        -- the `continue` in the source skips the state update here
        (setLast acc.1 fun l => { l with text := some ((l.text.getD []) ++ [v]) }).map (·, acc.2)
  | .sym t => some (acc.1, t)
  | .num t _ => some (acc.1, t)
  | .str t _ => some (acc.1, t)

/-- The parser loop: thread the accumulator through the tokens,
propagating a thrown exception. -/
def parserRun (acc : List TPart × String) : List TToken → Option (List TPart × String)
  | [] => some acc
  | t :: ts =>
    match parserStep acc t with
    | none => none
    | some acc2 => parserRun acc2 ts

/-- The step parser over one token segment; `none` models the TypeError
raised when an offset/temporal/spatial/assertion/side token arrives
while no part exists yet. -/
def parser (tokens : List TToken) : Option (List TPart) :=
  (parserRun ([], "") tokens).map (·.1)

/-- Indices of the tokens with the given tag (`findIndices` composed as
in `findTokens`). -/
def findTokens (arr : List TToken) (x : String) : List ℕ :=
  arr.enum.filterMap fun p => if tokTag p.2 = x then some p.1 else none

/-- JavaScript `Array.prototype.slice` with signed, clamped indices. -/
def jsSlice {α : Type} (l : List α) (a b : ℤ) : List α :=
  let n : ℤ := l.length
  let s := (if a < 0 then max (n + a) 0 else min a n).toNat
  let e := (if b < 0 then max (n + b) 0 else min b n).toNat
  (l.take e).drop s

/-- The source's `splitAt`.  Note that the `-1` sentinel is both the
first element of the reduced list and the initial accumulator, so the
first iteration contributes the junk segment `arr.slice(0, -1)`. -/
def splitAtTok (arr : List TToken) (is : List ℕ) : List (List TToken) :=
  ((((-1 : ℤ) :: is.map Int.ofNat) ++ [(arr.length : ℤ)]).foldl
    (fun acc b => (acc.1 ++ [jsSlice arr (acc.2 + 1) b], b))
    (([], -1) : List (List TToken) × ℤ)).1

/-- Segments obtained by splitting a token stream at the indirection
markers. -/
def bangSegs (tokens : List TToken) : List (List TToken) :=
  splitAtTok tokens (findTokens tokens "!")

/-- An `arr.map(f)` whose callback may throw: the first exception
propagates (later elements are then never evaluated). -/
def mapThrow {α β : Type} (f : α → Option β) : List α → Option (List β)
  | [] => some []
  | a :: l =>
    match f a with
    | none => none
    | some b => (mapThrow f l).map (b :: ·)

/-- The source's `parserIndir`: parse every `!`-segment. -/
def parserIndir (tokens : List TToken) : Option (List (List TPart)) :=
  mapThrow parser (bangSegs tokens)

/-- Result of `parse`: a point location (list of paths) or a range
triple. -/
inductive ParsedCFI where
  | point (paths : List (List TPart))
  | range (parent start endP : List (List TPart))
  deriving DecidableEq, Repr

/-- Match of `isCFIReg` (`/^epubcfi\((.*)\)$/`): the captured body, if
the string matches (`.` does not match line terminators). -/
def cfiBody (x : String) : Option String :=
  let l := x.toList
  let mid := (l.drop 8).dropLast
  if l.take 8 = "epubcfi(".toList ∧ l.getLast? = some ')' ∧ 9 ≤ l.length ∧
      mid.all (fun c => ¬(c = '\n' ∨ c = '\r' ∨ c = '\u2028' ∨ c = '\u2029')) then
    some mid.asString
  else none

/-- The source's `unwrap`. -/
def unwrap (x : String) : String := (cfiBody x).getD x

/-- The source's `wrap`. -/
def wrap (x : String) : String :=
  if (cfiBody x).isSome then x else "epubcfi(" ++ x ++ ")"

/-- The exported `parse`: tokenize the unwrapped string, split at range
separators (if any), and parse every indirection segment.  `none`
models a thrown exception. -/
def parse (cfi : String) : Option ParsedCFI :=
  let tokens := tokenizer (unwrap cfi)
  let commas := findTokens tokens ","
  if commas.isEmpty then (parserIndir tokens).map .point
  else
    mapThrow parserIndir (splitAtTok tokens commas) |>.map fun pieces =>
      match pieces with
      | p :: s :: e :: _ => .range p s e
      | _ => .range [] [] []  -- unreachable: splitAtTok yields at least three pieces here

/-- Truthiness of an optional JavaScript number (`undefined`, `null`,
`0` and `NaN` are falsy). -/
def jsTruthyNum : Option JNum → Bool
  | none => false
  | some .nan => false
  | some (.q v) => v != 0

/-- Truthiness of an optional JavaScript string (`undefined` and `''`
are falsy). -/
def jsTruthyStr : Option String → Bool
  | none => false
  | some s => s != ""

/-- Truthiness of `index % 2` in JavaScript: `NaN % 2` is falsy, and for
a numeric value the remainder is nonzero exactly when the value is not
an even integer, i.e. when its half is not an integer. -/
def jsOddIdx : JNum → Bool
  | .nan => false
  | .q v => (v / 2).den != 1

/-- The source's `escapeCFI`: prefix each of `^ [ ] ( ) , ; =` with a
circumflex. -/
def escapeCFI (str : String) : String :=
  (str.toList.flatMap fun c =>
    if c ∈ ['^', '[', ']', '(', ')', ',', ';', '='] then ['^', c] else [c]).asString

/-- Number of fractional digits of a finite-decimal rational (the only
non-integer numbers the embedded code produces). -/
def decDigits (v : ℚ) : Option ℕ :=
  (List.range 31).find? fun k => (v * (10 : ℚ) ^ k).den = 1

/-- JavaScript number-to-string conversion, for the integers and finite
decimals the embedded code produces. -/
def jsNumToString : JNum → String
  | .nan => "NaN"
  | .q v =>
    if v.den = 1 then toString v.num
    else
      match decDigits v with
      | some k =>
        let m := (|v| * (10 : ℚ) ^ k).num.toNat
        let fs := toString (m % 10 ^ k)
        (if v < 0 then "-" else "") ++ toString (m / 10 ^ k) ++ "." ++
          (List.replicate (k - fs.length) '0').asString ++ fs
      | none => toString v  -- not a finite decimal: never produced by the embedded code

/-- The source's `partToString`. -/
def partToString (p : TPart) : String :=
  let param := if jsTruthyStr p.side then ";s=" ++ p.side.getD "" else ""
  "/" ++ jsNumToString p.index ++
  (if jsTruthyStr p.id then "[" ++ escapeCFI (p.id.getD "") ++ param ++ "]" else "") ++
  -- "CFI expressions [..] SHOULD include an explicit character offset"
  (if p.offset.isSome ∧ jsOddIdx p.index then ":" ++ jsNumToString (p.offset.getD .nan) else "") ++
  (if jsTruthyNum p.temporal then "~" ++ jsNumToString (p.temporal.getD .nan) else "") ++
  (if p.spatial.isSome then
    "@" ++ String.intercalate ":" ((p.spatial.getD []).map jsNumToString) else "") ++
  (if p.text.isSome ∨ (¬jsTruthyStr p.id ∧ jsTruthyStr p.side) then
    "[" ++ String.intercalate "," ((p.text.getD []).map escapeCFI) ++ param ++ "]" else "")

/-- The parent/start/end triple of a parsed range, mirroring `TParsed`. -/
structure TParsed where
  parent : List (List TPart)
  start : List (List TPart)
  endP : List (List TPart)
  deriving DecidableEq, Repr

/-- The source's `toInnerString` on the plain-path shape (`TPart[][]`):
parts concatenate, paths join with the indirection marker. -/
def toInnerStringPaths (parsed : List (List TPart)) : String :=
  String.intercalate "!" (parsed.map fun parts => String.join (parts.map partToString))

/-- The source's `toInnerString` on the range shape: the three member
paths join with a comma. -/
def toInnerStringParsed (r : TParsed) : String :=
  String.intercalate "," ([r.parent, r.start, r.endP].map toInnerStringPaths)

/-- The source's `toString` on the plain-path shape. -/
def toStringPaths (parsed : List (List TPart)) : String :=
  wrap (toInnerStringPaths parsed)

/-- The source's `toString` on the range shape. -/
def toStringParsed (r : TParsed) : String :=
  wrap (toInnerStringParsed r)

/-- The source's `concatArrays`; `none` models the TypeError thrown by
`a[a.length - 1]!.concat` when `a` is empty. -/
def concatArrays (a b : List (List TPart)) : Option (List (List TPart)) :=
  match a.getLast? with
  | none => none
  | some la => some (a.dropLast ++ [la ++ b.headD []] ++ b.drop 1)

/-- The source's `collapse` on the range shape (on the plain-path shape
`collapse` is the identity, which the claims below inline). -/
def collapseRange (x : TParsed) (toEnd : Bool) : Option (List (List TPart)) :=
  concatArrays x.parent (if toEnd then x.endP else x.start)

/-- The loop condition accumulated into `pushToParent`:
`a?.index === b?.index && !a?.offset && !b?.offset`.  Strict equality on
`undefined` is true, `NaN === NaN` is false. -/
def jsEqIdx (a b : Option TPart) : Bool :=
  match a, b with
  | none, none => true
  | some x, some y =>
    match x.index, y.index with
    | .q u, .q v => u == v
    | _, _ => false
  | _, _ => false

/-- Truthiness of `a?.offset`. -/
def jsTruthyOff (a : Option TPart) : Bool :=
  match a with
  | none => false
  | some x => jsTruthyNum x.offset

/-- One position's contribution to `pushToParent`. -/
def pushCond (a b : Option TPart) : Bool :=
  jsEqIdx a b && !jsTruthyOff a && !jsTruthyOff b

/-- One iteration of the `buildRange` loop: the accumulator carries
`localParent`, `localStart`, `localEnd` and `pushToParent`. -/
def brStep (lf lt : List TPart) (acc : List TPart × List TPart × List TPart × Bool) (i : ℕ) :
    List TPart × List TPart × List TPart × Bool :=
  let a := lf[i]?
  let b := lt[i]?
  let ptp := acc.2.2.2 && pushCond a b
  if ptp then (acc.1 ++ a.toList, acc.2.1, acc.2.2.1, ptp)
  else (acc.1, acc.2.1 ++ a.toList, acc.2.2.1 ++ b.toList, ptp)

/-- The source's `buildRange` up to (but not including) the final
serialization.  `none` models the TypeError raised when exactly one of
the two paths is empty (indexing into `undefined` inside the loop); note
that `collapse` on the `TPart[][]` arguments is the identity.  In the
`pushToParent` branch the loop pushes `a`, which is always defined there
because `pushToParent` requires `a?.index === b?.index` with at least one
side defined. -/
def buildRangeStruct (f t : List (List TPart)) : Option TParsed :=
  let localFrom := f.getLast?
  let localTo := t.getLast?
  let len := max ((localFrom.getD []).length) ((localTo.getD []).length)
  if len ≠ 0 ∧ (localFrom = none ∨ localTo = none) then none
  else
    let res := (List.range len).foldl (brStep (localFrom.getD []) (localTo.getD [])) ([], [], [], true)
    -- copy non-local paths from `from`
    some { parent := f.dropLast ++ [res.1], start := [res.2.1], endP := [res.2.2.1] }

/-- The source's `buildRange`: build the range triple and serialize it. -/
def buildRange (f t : List (List TPart)) : Option String :=
  (buildRangeStruct f t).map toStringParsed

/-- A DOM node: an element (with its `id` attribute, `''` when absent,
and its raw child list), character data (a text or CDATA node, with its
`nodeValue`), or any other node kind (comment, processing instruction,
...), which `getChildNodes` ignores. -/
inductive XNode where
  | elem (id : String) (children : List XNode)
  | text (value : String)
  | other

/-- The source's `isTextNode` (`nodeType === 3 || nodeType === 4`). -/
def isTextNode : XNode → Bool
  | .text _ => true
  | _ => false

/-- The source's `isElementNode` (`nodeType === 1`). -/
def isElementNode : XNode → Bool
  | .elem _ _ => true
  | _ => false

/-- Raw `childNodes` of a node. -/
def XNode.childNodes : XNode → List XNode
  | .elem _ cs => cs
  | _ => []

/-- The `id` property: a string for elements (empty when the attribute
is absent), `undefined` for other nodes. -/
def XNode.jsId : XNode → Option String
  | .elem i _ => some i
  | _ => none

/-- A node position: the chain of raw child indices from the document
element.  Two node references are `===`-equal exactly when their
positions coincide. -/
abbrev Pos := List ℕ

/-- Node at a position. -/
def nodeAt : XNode → Pos → Option XNode
  | n, [] => some n
  | n, i :: rest =>
    match n.childNodes.get? i with
    | some c => nodeAt c rest
    | none => none

theorem sizeOf_childNodes_le (n : XNode) : sizeOf n.childNodes ≤ sizeOf n := by
  cases n <;> simp [XNode.childNodes] <;> omega

/-- Worker of `getChildNodes`: walk the raw child list, keep element and
character-data nodes, and apply the caller's `NodeFilter` (`2` rejects
the subtree, `3` replaces the node by its filtered children, anything
else accepts).  Results carry their positions. -/
def gcnList (filter : Option (XNode → ℕ)) : List XNode → Pos → ℕ → List (Pos × XNode)
  | [], _, _ => []
  | c :: rest, p, i =>
    (if isTextNode c || isElementNode c then
      match filter with
      | none => [(p ++ [i], c)]
      | some f =>
        if f c = 2 then []
        else if f c = 3 then gcnList filter c.childNodes (p ++ [i]) 0
        else [(p ++ [i], c)]
     else []) ++ gcnList filter rest p (i + 1)
  termination_by l _ _ => sizeOf l
  decreasing_by
  · have h := sizeOf_childNodes_le c
    simp only [List.cons.sizeOf_spec]
    omega
  · simp only [List.cons.sizeOf_spec]
    omega

/-- The source's `getChildNodes` (with positions attached). -/
def getChildNodesX (filter : Option (XNode → ℕ)) (n : XNode) (p : Pos) : List (Pos × XNode) :=
  gcnList filter n.childNodes p 0

/-- An entry of the indexed child list: a single node, a merged run of
text nodes (a chunk), the `null` placeholder pushed between adjacent
element children, or one of the virtual marker strings. -/
inductive Entry where
  | one (p : Pos) (n : XNode)
  | chunk (ns : List (Pos × XNode))
  | hole
  | marker (s : String)

/-- `isTextNode` applied to an entry (arrays, `null` and strings have no
`nodeType`, hence are not text nodes). -/
def isTextE : Entry → Bool
  | .one _ n => isTextNode n
  | _ => false

/-- `isElementNode` applied to an entry. -/
def isElemE : Entry → Bool
  | .one _ n => isElementNode n
  | _ => false

/-- One iteration of the reduce inside `indexChildNodes`: merge a text
node into a preceding text/chunk entry, and insert a `null` placeholder
between adjacent element children. -/
def istep (arr : List Entry) (e : Pos × XNode) : List Entry :=
  match arr.getLast? with
  | none => arr ++ [.one e.1 e.2]
  | some .hole => arr ++ [.one e.1 e.2]  -- the `if (!last)` branch; a hole is never last
  | some last =>
    if isTextNode e.2 then
      -- "there is one chunk between each pair of child elements"
      match last with
      | .chunk ns => arr.dropLast ++ [.chunk (ns ++ [e])]
      | .one qp m =>
        if isTextNode m then arr.dropLast ++ [.chunk [(qp, m), e]]
        else arr ++ [.one e.1 e.2]
      | _ => arr ++ [.one e.1 e.2]
    else
      match last with
      | .one qp m =>
        if isElementNode m then arr ++ [.hole, .one e.1 e.2]
        else arr ++ [.one e.1 e.2]
      | _ => arr ++ [.one e.1 e.2]

/-- The source's `indexChildNodes`.  `none` models the TypeError thrown
by `isElementNode(nodes[0])` when the filtered child list is empty
(destructuring `nodeType` of `undefined`). -/
def indexChildNodesX (n : XNode) (p : Pos) (filter : Option (XNode → ℕ)) :
    Option (List Entry) :=
  let content := (getChildNodesX filter n p).foldl istep []
  match content.head? with
  | none => none
  | some h =>
    -- "the first chunk is located before the first child element"
    let c1 := if isElemE h then Entry.marker "first" :: content else content
    -- "the last chunk is located after the last child element"
    let c2 := if (c1.getLast?.map isElemE).getD false then c1 ++ [Entry.marker "last"] else c1
    -- "'virtual' elements": 0 and n+2 are valid indices
    some (Entry.marker "before" :: (c2 ++ [Entry.marker "after"]))

/-- The document's `getElementById` over a raw child list, in document
(preorder) order. -/
def gbiList (i : String) : List XNode → Pos → ℕ → Option (Pos × XNode)
  | [], _, _ => none
  | c :: rest, p, k =>
    (match c with
     | .elem id2 cs =>
       if id2 = i then some (p ++ [k], .elem id2 cs) else gbiList i cs (p ++ [k]) 0
     | _ => none) <|> gbiList i rest p (k + 1)
  termination_by l _ _ => sizeOf l
  decreasing_by
  · simp only [List.cons.sizeOf_spec, XNode.elem.sizeOf_spec]
    omega
  · simp only [List.cons.sizeOf_spec]
    omega

/-- `node.ownerDocument.getElementById`, searching from the document
element. -/
def getById (root : XNode) (i : String) : Option (Pos × XNode) :=
  match root with
  | .elem id2 _ => if id2 = i then some ([], root) else gbiList i root.childNodes [] 0
  | _ => none

/-- Indexing a JavaScript array with a number: `undefined` unless the
number is a nonnegative integer within bounds. -/
def slotAt (slots : List Entry) (idx : JNum) : Option Entry :=
  match idx with
  | .nan => none
  | .q v => if v.den = 1 ∧ 0 ≤ v.num then slots.get? v.num.toNat else none

/-- The loop variable `node` of `partsToNode`: a real node, a text
chunk, or the JavaScript `undefined`/`null` it degenerates to on missed
lookups. -/
inductive Cursor where
  | nodeC (p : Pos) (n : XNode)
  | chunkC (ns : List (Pos × XNode))
  | undefC
  | nullC

/-- Results of `partsToNode`: a node (with an optional offset), a
degenerate `{ node: undefined, offset }` object, or a boundary
(`before`/`after`) position. -/
inductive NodeRes where
  | found (p : Pos) (n : XNode) (offset : Option JNum)
  | undefFound (offset : JNum)
  | boundary (p : Pos) (n : XNode) (isAfter : Bool)

/-- The chunk scan at the end of `partsToNode`: walk the chunk's members
accumulating `nodeValue` lengths; falling off the loop yields
`undefined` (modelled `some none`); a member without character data
would throw. -/
def chunkWalk (off : ℚ) : List (Pos × XNode) → ℚ → Option (Option NodeRes)
  | [], _ => some none
  | (qp, m) :: rest, sum =>
    match m with
    | .text s =>
      if sum + s.length ≥ off then some (some (.found qp (.text s) (some (.q (off - sum)))))
      else chunkWalk off rest (sum + s.length)
    | _ => none

/-- The `for (const { index } of parts)` loop of `partsToNode`:
`Sum.inl` is normal loop exit with the final `node` value, `Sum.inr` an
early `return`, `none` a thrown exception. -/
def ptnWalk (filter : Option (XNode → ℕ)) : List TPart → Cursor → Option (Cursor ⊕ NodeRes)
  | [], c => some (.inl c)
  | pt :: rest, c =>
    match c with
    | .undefC => ptnWalk filter rest .nullC   -- `node ? ... : null`; no marker matches null
    | .nullC => ptnWalk filter rest .nullC
    | .chunkC _ => none   -- `Array.from(undefined)`: indexing children of an array throws
    | .nodeC p n =>
      match indexChildNodesX n p filter with
      | none => none
      | some slots =>
        -- handle non-existent nodes
        match slotAt slots pt.index with
        | some (.marker "first") =>
          some (.inr (match n.childNodes.head? with
            | some fc => .found (p ++ [0]) fc none
            | none => .found p n none))
        | some (.marker "last") =>
          some (.inr (match n.childNodes.getLast? with
            | some lc => .found (p ++ [n.childNodes.length - 1]) lc none
            | none => .found p n none))
        | some (.marker "before") => some (.inr (.boundary p n false))
        | some (.marker "after") => some (.inr (.boundary p n true))
        | some (.marker _) => none   -- no other marker strings are produced
        | some (.one qp m) => ptnWalk filter rest (.nodeC qp m)
        | some (.chunk ns) => ptnWalk filter rest (.chunkC ns)
        | some .hole => ptnWalk filter rest .nullC
        | none => ptnWalk filter rest .undefC

/-- The source's `partsToNode`.  The outer `none` models a thrown
exception; `some none` models a `null`/`undefined` result. -/
def partsToNode (root : XNode) (parts : Option (List TPart)) (filter : Option (XNode → ℕ)) :
    Option (Option NodeRes) :=
  match parts with
  | none => some none
  | some parts =>
    match parts.getLast? with
    | none => none   -- destructuring `id` of `undefined`: `parts` is empty
    | some lastPart =>
      let byId : Option NodeRes :=
        if jsTruthyStr lastPart.id then
          match getById root (lastPart.id.getD "") with
          | some r => some (.found r.1 r.2 (some (.q 0)))
          | none => none
        else none
      match byId with
      | some r => some (some r)
      | none =>
        match ptnWalk filter parts (.nodeC [] root) with
        | none => none
        | some (.inr r) => some (some r)
        | some (.inl c) =>
          match lastPart.offset with
          | none => some none          -- `if (!offset) return null`
          | some .nan => some none     -- NaN is falsy
          | some (.q v) =>
            if v = 0 then some none    -- 0 is falsy
            else
              match c with
              | .nodeC p n => some (some (.found p n (some (.q v))))
              | .undefC => some (some (.undefFound (.q v)))  -- `{ node: undefined, offset }`
              | .nullC => some (some (.undefFound (.q v)))
              -- get underlying text node and offset from the chunk
              | .chunkC ns => chunkWalk v ns 0

/-- One derived part, mirroring the `IPart` interface. -/
structure IPart where
  id : Option String
  index : ℤ
  offset : Option JNum
  deriving DecidableEq, Repr

/-- Membership of the node at `p` in a slot, as the `findIndex`
predicate `Array.isArray(x) ? x.some(x => x === node) : x === node`. -/
def entryContains (e : Entry) (p : Pos) : Bool :=
  match e with
  | .one qp _ => qp == p
  | .chunk ns => ns.any fun x => x.1 == p
  | _ => false

/-- JavaScript addition on the numbers at hand. -/
def jsAdd : JNum → JNum → JNum
  | .q a, .q b => .q (a + b)
  | _, _ => .nan

/-- `x.nodeValue?.length ?? 0`. -/
def nodeValueLen : XNode → ℕ
  | .text s => s.length
  | _ => 0

/-- The chunk scan inside `nodeToParts`: sum the lengths of the members
preceding the node, then add the given offset (`offset ?? 0`). -/
def chunkOffsetSum (p : Pos) (offset : Option JNum) : List (Pos × XNode) → JNum → JNum
  | [], sum => sum
  | (qp, m) :: rest, sum =>
    if qp = p then jsAdd sum (offset.getD (.q 0))
    else chunkOffsetSum p offset rest (jsAdd sum (.q (nodeValueLen m)))

/-- The source's `nodeToParts`, on a node given by its position.  An
empty position is the document element itself, on which the original
recursion dereferences the document's null parent and throws. -/
def nodeToParts (root : XNode) (p : Pos) (offset : Option JNum)
    (filter : Option (XNode → ℕ)) : Option (List IPart) :=
  match p with
  | [] => none
  | a :: rest =>
    let p := a :: rest
    let parentP := p.dropLast
    match nodeAt root p, nodeAt root parentP with
    | some node, some parentNode =>
      match indexChildNodesX parentNode parentP filter with
      | none => none
      | some indexed =>
        let index : ℤ := match indexed.findIdx? (entryContains · p) with
          | some i => (i : ℤ)
          | none => -1
        -- adjust offset as if merging the text nodes in the chunk
        let offset2 : Option JNum :=
          match (if 0 ≤ index then indexed.get? index.toNat else none) with
          | some (.chunk ns) => some (chunkOffsetSum p offset ns (.q 0))
          | _ => offset
        let part : IPart := { id := node.jsId, index := index, offset := offset2 }
        let res : Option (List IPart) :=
          if parentP = [] then some [part]   -- parentNode === documentElement
          else (nodeToParts root parentP none filter).map (· ++ [part])
        -- remove ignored nodes
        res.map (·.filter fun x => x.index != -1)
    | _, _ => none
  termination_by p.length
  decreasing_by
    simp only [List.length_dropLast, List.length_cons]
    omega

/-! Concrete parts used by several claims below. -/

/-- A bare step part. -/
def stepPart (n : ℕ) : TPart := { index := .q n, offset := none }

/-- A step part with an id assertion. -/
def idPart (n : ℕ) (i : String) : TPart := { index := .q n, offset := none, id := some i }

/-- A step part with a character offset. -/
def offPart (n k : ℕ) : TPart := { index := .q n, offset := some (.q k) }

/-- C1: the claim states that for every valid synthesized parsed path
`P`, `parse (toString P) = P`.  This fails on the code: `splitAt`
double-counts its `-1` sentinel (it is both the first element of the
reduced list and the initial accumulator), so parsing always prepends a
junk segment `arr.slice(0, -1)`.  Already for the one-part path
`[[{index: 2, offset: null}]]` the round trip returns an extra leading
empty path. -/
theorem parse_toString_adds_junk_segment :
    parse (toStringPaths [[stepPart 2]]) = some (.point [[], [stepPart 2]]) ∧
    ParsedCFI.point [[], [stepPart 2]] ≠ .point [[stepPart 2]] := by
  decide

/-- C3: the claim states that the spec's example CFI parses into exactly
two Paths split at the indirection marker.  On the code the same
`splitAt` slip yields three Paths: a junk segment (everything except the
last token, with the `!` inert) followed by the two real segments; the
final part of the last Path does have index 3 and offset 10. -/
theorem parse_spec_example_yields_three_paths :
    parse "epubcfi(/6/4[chap01ref]!/4[body01]/10[para05]/3:10)" =
      some (.point
        [[stepPart 6, idPart 4 "chap01ref", idPart 4 "body01", idPart 10 "para05", stepPart 3],
         [stepPart 6, idPart 4 "chap01ref"],
         [idPart 4 "body01", idPart 10 "para05", offPart 3 10]]) ∧
    ([[stepPart 6, idPart 4 "chap01ref", idPart 4 "body01", idPart 10 "para05", stepPart 3],
      [stepPart 6, idPart 4 "chap01ref"],
      [idPart 4 "body01", idPart 10 "para05", offPart 3 10]] : List (List TPart)).length ≠ 2 := by
  decide

/-- C2 counterexample: the claim states `parse` never raises, naming
`"epubcfi(:5)"` in particular.  On the code an offset token before any
step makes the parser set `offset` on `parts[parts.length - 1]!` of an
empty list — a TypeError, modelled by `none`. -/
theorem parse_offset_first_throws : parse "epubcfi(:5)" = none := by
  decide

/-- C4 counterexample: with innermost segments agreeing on an
offset-free prefix of length 1 in the claim's sense (equal step
indices, no offsets), `collapse (buildRange A B) toEnd` reproduces the
prefix part of `A` — with its id assertion `"x"` — not the part of `B`
(id `"y"`), because `buildRange` pushes only `from`-side parts into the
parent. -/
theorem buildRange_collapse_end_keeps_from_parts :
    buildRangeStruct [[idPart 2 "x", offPart 1 5]] [[idPart 2 "y", offPart 3 7]] =
      some ⟨[[idPart 2 "x"]], [[offPart 1 5]], [[offPart 3 7]]⟩ ∧
    collapseRange ⟨[[idPart 2 "x"]], [[offPart 1 5]], [[offPart 3 7]]⟩ true =
      some [[idPart 2 "x", offPart 3 7]] ∧
    ([[idPart 2 "x", offPart 3 7]] : List (List TPart)) ≠ [[idPart 2 "y", offPart 3 7]] := by
  decide

/-- C6 counterexample: the claim states at most one of `id`/`text` is
populated and that `"/4[a,b]"` must not yield both.  On the code the
first assertion (following the step) becomes the id and the
comma-separated extension is appended to `text`, so both are set. -/
theorem parser_comma_assertion_sets_both :
    parser (tokenizer "/4[a,b]") =
      some [{ index := .q 4, offset := none, id := some "a", text := some ["b"] }] ∧
    (some "a" : Option String) ≠ none ∧ (some ["b"] : Option (List String)) ≠ none := by
  decide

/-- C5: the claim states that a path resolving through real child slots
with an absent (or zero) terminal offset still returns the resolved
node.  On the code `partsToNode` ends with `if (!offset) return null`,
so the same walk that succeeds with a truthy offset returns `null`
(absent) when the offset is `null`. -/
theorem partsToNode_returns_null_without_offset :
    partsToNode (XNode.elem "r" [XNode.elem "c" []]) (some [stepPart 2]) none = some none ∧
    partsToNode (XNode.elem "r" [XNode.elem "c" []]) (some [offPart 2 5]) none =
      some (some (.found [0] (XNode.elem "c" []) (some (.q 5)))) := by
  constructor <;>
    simp [partsToNode, ptnWalk, indexChildNodesX, getChildNodesX, gcnList, istep, slotAt,
      jsTruthyStr, isTextNode, isElementNode, XNode.childNodes, isElemE, stepPart, offPart]

/-- C9 counterexample: the claim states only the terminal Part of a
derived path carries an id.  On the code every recursion level attaches
its own node's id, so deriving the path of the inner element `b` below
the element `a` yields a non-terminal part with id `"a"`. -/
theorem nodeToParts_ancestor_id_set :
    nodeToParts (XNode.elem "" [XNode.elem "a" [XNode.elem "b" []]]) [0, 0] none none =
      some [⟨some "a", 2, none⟩, ⟨some "b", 2, none⟩] ∧
    (([⟨some "a", 2, none⟩, ⟨some "b", 2, none⟩] : List IPart).dropLast.any
      fun x => jsTruthyStr x.id) = true := by
  refine ⟨?_, by decide⟩
  simp [nodeToParts, indexChildNodesX, getChildNodesX, gcnList, istep, nodeAt,
    XNode.childNodes, isTextNode, isElementNode, isElemE, entryContains, XNode.jsId]

/-- C10: for every node whose filtered child list is empty the tree
indexer throws (`isElementNode(nodes[0])` destructures `nodeType` of
`undefined`), modelled by `none`, instead of returning
`['before', 'after']`; path-to-node resolution reaches this case when
descending into a childless element, also yielding a thrown
exception. -/
theorem indexChildNodes_throws_on_no_children (n : XNode) (p : Pos)
    (filter : Option (XNode → ℕ)) (h : getChildNodesX filter n p = []) :
    indexChildNodesX n p filter = none ∧
    partsToNode (XNode.elem "a" [XNode.elem "b" []]) (some [stepPart 2, stepPart 0]) none =
      none := by
  refine ⟨by simp [indexChildNodesX, h], ?_⟩
  simp [partsToNode, ptnWalk, indexChildNodesX, getChildNodesX, gcnList, istep, slotAt,
    jsTruthyStr, isTextNode, isElementNode, XNode.childNodes, isElemE, stepPart]

/-- Witness for C10 at the childless element `b`. -/
theorem indexChildNodes_throws_on_no_children_witness :
    getChildNodesX none (XNode.elem "b" []) [0] = [] ∧
    indexChildNodesX (XNode.elem "b" []) [0] none = none := by
  have h : getChildNodesX none (XNode.elem "b" []) [0] = [] := by
    simp [getChildNodesX, gcnList, XNode.childNodes]
  exact ⟨h, (indexChildNodes_throws_on_no_children (XNode.elem "b" []) [0] none h).1⟩

theorem den_half_natCast (n : ℕ) : ((n : ℚ) / 2).den = 1 ↔ n % 2 = 0 := by
  constructor
  · intro h
    have h1 : ((((n : ℚ) / 2).num : ℚ)) = (n : ℚ) / 2 := (Rat.den_eq_one_iff _).mp h
    have h2 : ((2 * ((n : ℚ) / 2).num : ℤ) : ℚ) = ((n : ℤ) : ℚ) := by
      push_cast
      rw [h1]
      ring
    have h3 : (2 * ((n : ℚ) / 2).num) = (n : ℤ) := by exact_mod_cast h2
    omega
  · intro h
    obtain ⟨m, hm⟩ := Nat.even_iff.mpr h
    have hq : ((n : ℚ)) / 2 = (m : ℚ) := by
      subst hm
      push_cast
      ring
    rw [hq, Rat.den_natCast]

theorem jsOddIdx_natCast (n : ℕ) : jsOddIdx (.q (n : ℚ)) = decide (n % 2 = 1) := by
  have h := den_half_natCast n
  rcases Nat.mod_two_eq_zero_or_one n with h0 | h1
  · simp [jsOddIdx, h.mpr h0, h0]
  · have hne : ((n : ℚ) / 2).den ≠ 1 := fun hd => by
      have := h.mp hd
      omega
    simp [jsOddIdx, hne, h1]

theorem jsNumToString_natCast (n : ℕ) : jsNumToString (.q (n : ℚ)) = toString n := by
  simp [jsNumToString, Rat.den_natCast, Rat.num_natCast]
  rfl

/-- C8: serialization renders the `:offset` component exactly when an
offset is set and the index is odd (even-index offsets are silently
dropped), while the parser records an offset token on the current part
after a step of either parity. -/
theorem partToString_offset_parity (n k : ℕ) :
    partToString (offPart n k) =
      "/" ++ toString n ++ (if n % 2 = 1 then ":" ++ toString k else "") ∧
    parser [.num "/" (.q n), .num ":" (.q k)] = some [offPart n k] := by
  constructor
  · by_cases hp : n % 2 = 1 <;>
      simp [partToString, offPart, jsTruthyStr, jsTruthyNum, jsOddIdx_natCast,
        jsNumToString_natCast, hp]
  · rfl

/-! Development for C2: the parser throws exactly when a token needing a
current part arrives before any step token of its segment. -/

/-- Tokens whose parser action dereferences the (possibly absent) last
part. -/
def needyTok : TToken → Bool
  | .num ":" _ => true
  | .num "~" _ => true
  | .num "@" _ => true
  | .str "[" _ => true
  | .str ";s" _ => true
  | _ => false

/-- Step tokens (the only ones that push a new part). -/
def isStepTok : TToken → Bool
  | .num "/" _ => true
  | _ => false

/-- A segment is safe for the parser when no needy token precedes its
first step token. -/
def segSafe (ts : List TToken) : Bool :=
  (ts.takeWhile fun t => !isStepTok t).all fun t => !needyTok t

/-- All token segments that `parse` hands to the step parser (the
comma pieces, each split at the indirection markers). -/
def parseSegments (cfi : String) : List (List TToken) :=
  let tokens := tokenizer (unwrap cfi)
  let commas := findTokens tokens ","
  if commas.isEmpty then bangSegs tokens
  else (splitAtTok tokens commas).flatMap bangSegs

theorem parserStep_ne_nil (acc : List TPart × String) (t : TToken) (h : acc.1 ≠ []) :
    ∃ acc2, parserStep acc t = some acc2 ∧ acc2.1 ≠ [] := by
  obtain ⟨l0, hl0⟩ : ∃ x, acc.1.getLast? = some x := by
    cases hx : acc.1.getLast? with
    | none => exact absurd (List.getLast?_eq_none_iff.mp hx) h
    | some x => exact ⟨x, rfl⟩
  rw [parserStep.eq_def]
  split
  all_goals try exact ⟨_, rfl, h⟩
  all_goals try exact ⟨_, rfl, by simp⟩
  all_goals try (simp only [setLast, hl0, Option.map_some']; exact ⟨_, rfl, by simp⟩)
  all_goals split <;> (simp only [setLast, hl0, Option.map_some']; exact ⟨_, rfl, by simp⟩)

theorem parserRun_ne_nil_isSome (ts : List TToken) :
    ∀ acc, acc.1 ≠ [] → (parserRun acc ts).isSome := by
  induction ts with
  | nil => intro acc _; simp [parserRun]
  | cons t ts ih =>
    intro acc h
    obtain ⟨acc2, hs, h2⟩ := parserStep_ne_nil acc t h
    simp only [parserRun, hs]
    exact ih acc2 h2

theorem parserRun_safe_isSome (ts : List TToken) :
    ∀ st, segSafe ts = true → (parserRun ([], st) ts).isSome := by
  induction ts with
  | nil => intro st _; simp [parserRun]
  | cons t ts ih =>
    intro st hsafe
    by_cases hstep : isStepTok t = true
    · obtain ⟨v, rfl⟩ : ∃ v, t = .num "/" v := by
        rw [isStepTok.eq_def] at hstep
        split at hstep
        · rename_i v; exact ⟨v, rfl⟩
        · simp at hstep
      simp only [parserRun, parserStep]
      exact parserRun_ne_nil_isSome ts _ (by simp)
    · replace hstep : isStepTok t = false := by simpa using hstep
      have hsafe2 : needyTok t = false ∧ segSafe ts = true := by
        unfold segSafe at hsafe ⊢
        rw [List.takeWhile_cons] at hsafe
        simp [hstep] at hsafe
        simpa using hsafe
      obtain ⟨st2, hs⟩ : ∃ st2, parserStep ([], st) t = some ([], st2) := by
        have hneedy := hsafe2.1
        rw [parserStep.eq_def]
        split
        all_goals try exact ⟨_, rfl⟩
        · simp [isStepTok] at hstep
        · simp [needyTok] at hneedy
        · simp [needyTok] at hneedy
        · simp [needyTok] at hneedy
        · simp [needyTok] at hneedy
        · simp [needyTok] at hneedy
      simp only [parserRun, hs]
      exact ih st2 hsafe2.2

theorem mapThrow_isSome {α β : Type} (f : α → Option β) (l : List α)
    (h : ∀ a ∈ l, (f a).isSome) : (mapThrow f l).isSome := by
  induction l with
  | nil => simp [mapThrow]
  | cons a l ih =>
    obtain ⟨b, hb⟩ := Option.isSome_iff_exists.mp (h a (by simp))
    have h2 := ih fun x hx => h x (by simp [hx])
    obtain ⟨bs, hbs⟩ := Option.isSome_iff_exists.mp h2
    simp [mapThrow, hb, hbs]

theorem parser_isSome_of_safe (ts : List TToken) (h : segSafe ts = true) :
    (parser ts).isSome := by
  unfold parser
  rw [Option.isSome_map']
  exact parserRun_safe_isSome ts "" h

theorem parserIndir_isSome (ts : List TToken)
    (h : ∀ seg ∈ bangSegs ts, segSafe seg = true) : (parserIndir ts).isSome :=
  mapThrow_isSome _ _ fun seg hseg => parser_isSome_of_safe seg (h seg hseg)

/-- C2 (amended): `parse` never raises provided that, in every token
segment it hands to the step parser, no offset/temporal/spatial/
assertion/side token precedes the first step token; otherwise (as in
`"epubcfi(:5)"`) the parser dereferences a missing last part and a
TypeError is thrown. -/
theorem parse_total_on_guarded_segments (cfi : String)
    (h : ∀ seg ∈ parseSegments cfi, segSafe seg = true) :
    (parse cfi).isSome := by
  unfold parse
  unfold parseSegments at h
  dsimp only at h ⊢
  split
  · rename_i hc
    rw [if_pos hc] at h
    rw [Option.isSome_map']
    exact parserIndir_isSome _ h
  · rename_i hc
    rw [if_neg hc] at h
    rw [Option.isSome_map']
    refine mapThrow_isSome _ _ fun piece hpiece => ?_
    refine parserIndir_isSome _ fun seg hseg => ?_
    exact h seg (List.mem_flatMap.mpr ⟨piece, hpiece, hseg⟩)

/-- Witness for C2's amended theorem on a well-formed range-free CFI. -/
theorem parse_total_on_guarded_segments_witness :
    (∀ seg ∈ parseSegments "epubcfi(/6/4!/2:5)", segSafe seg = true) ∧
    (parse "epubcfi(/6/4!/2:5)").isSome = true :=
  ⟨by decide, parse_total_on_guarded_segments _ (by decide)⟩

/-! Development for C4: the `buildRange` loop computed in closed form. -/

theorem brFold_eq (lf lt : List TPart) (k : ℕ)
    (hfree : ∀ i, i < k → pushCond lf[i]? lt[i]? = true)
    (hdiv : pushCond lf[k]? lt[k]? = false ∨ max lf.length lt.length ≤ k) :
    ∀ m, m ≤ max lf.length lt.length →
      (List.range m).foldl (brStep lf lt) ([], [], [], true) =
        if m ≤ k then (lf.take m, [], [], true)
        else (lf.take k, (lf.drop k).take (m - k), (lt.drop k).take (m - k), false) := by
  have hx1 : ∀ l : List TPart, (l.drop k).take 1 = l[k]?.toList := by
    intro l
    have h0 : (1 : ℕ) = 0 + 1 := rfl
    rw [h0, List.take_succ, List.getElem?_drop]
    simp
  have hx2 : ∀ (l : List TPart) m, k < m → (l.drop k).take (m - k) ++ l[m]?.toList =
      (l.drop k).take (m + 1 - k) := by
    intro l m hkm
    have h1 : m + 1 - k = (m - k) + 1 := by omega
    rw [h1, List.take_succ, List.getElem?_drop]
    have h2 : k + (m - k) = m := by omega
    rw [h2]
  intro m
  induction m with
  | zero => simp
  | succ m ih =>
    intro hm1
    have hm : m ≤ max lf.length lt.length := by omega
    rw [List.range_succ, List.foldl_append, ih hm]
    by_cases hlt : m < k
    · rw [if_pos (by omega), if_pos (by omega)]
      have hstep : brStep lf lt (lf.take m, [], [], true) m = (lf.take (m + 1), [], [], true) := by
        simp [brStep, hfree m hlt, ← List.take_succ]
      simp [hstep]
    · by_cases heq : m = k
      · subst heq
        have hdiv2 : pushCond lf[m]? lt[m]? = false := by
          rcases hdiv with h | h
          · exact h
          · omega
        rw [if_pos (le_refl m), if_neg (by omega)]
        have hstep : brStep lf lt (lf.take m, [], [], true) m =
            (lf.take m, lf[m]?.toList, lt[m]?.toList, false) := by
          simp [brStep, hdiv2]
        simp [hstep, hx1]
      · have hk : k < m := by omega
        rw [if_neg (by omega), if_neg (by omega)]
        have hstep : brStep lf lt
            (lf.take k, (lf.drop k).take (m - k), (lt.drop k).take (m - k), false) m =
            (lf.take k, (lf.drop k).take (m - k) ++ lf[m]?.toList,
             (lt.drop k).take (m - k) ++ lt[m]?.toList, false) := by
          simp [brStep]
        simp [hstep, hx2 lf m hk, hx2 lt m hk]

/-- C4 (amended): for endpoint paths `A`, `B` that agree on all outer
segments and whose innermost segments share an actual common prefix of
length `k` (equal parts, offset-free and with matching indices, and
divergence at `k` unless both segments end there), `buildRange` yields a
parent whose innermost segment is that prefix of length `k`, and
collapsing recovers `A` and `B`. -/
theorem buildRange_collapse_roundtrip
    (A B : List (List TPart)) (LA LB : List TPart) (k : ℕ)
    (hA : A.getLast? = some LA) (hB : B.getLast? = some LB)
    (houter : A.dropLast = B.dropLast)
    (hpre : LA.take k = LB.take k)
    (hkA : k ≤ LA.length) (hkB : k ≤ LB.length)
    (hfree : ∀ i, i < k → pushCond LA[i]? LB[i]? = true)
    (hdiv : pushCond LA[k]? LB[k]? = false ∨ max LA.length LB.length ≤ k) :
    ∃ r, buildRangeStruct A B = some r ∧
      r.parent.getLast? = some (LA.take k) ∧ (LA.take k).length = k ∧
      collapseRange r false = some A ∧ collapseRange r true = some B := by
  have hfold := brFold_eq LA LB k hfree hdiv (max LA.length LB.length) (le_refl _)
  have hAeq : A.dropLast ++ [LA] = A :=
    List.dropLast_append_getLast? LA (by rw [hA]; rfl)
  have hBeq : B.dropLast ++ [LB] = B :=
    List.dropLast_append_getLast? LB (by rw [hB]; rfl)
  have htakeLA : (LA.drop k).take (max LA.length LB.length - k) = LA.drop k :=
    List.take_of_length_le (by simp; omega)
  have htakeLB : (LB.drop k).take (max LA.length LB.length - k) = LB.drop k :=
    List.take_of_length_le (by simp; omega)
  unfold buildRangeStruct
  rw [hA, hB]
  dsimp only [Option.getD_some]
  rw [if_neg (by simp)]
  by_cases hkmax : max LA.length LB.length ≤ k
  · -- the whole innermost segments coincide with the prefix
    have hEA : LA.length = k := by omega
    have hEB : LB.length = k := by omega
    have hmax : max LA.length LB.length = k := by omega
    rw [hfold, if_pos hkmax, hmax]
    have hLA : LA.take k = LA := List.take_of_length_le (le_of_eq hEA)
    have hLB : LB.take k = LB := List.take_of_length_le (le_of_eq hEB)
    refine ⟨_, rfl, ?_, ?_, ?_, ?_⟩
    · simp [List.getLast?_concat]
    · simp [List.length_take]
      omega
    · simp only [collapseRange, concatArrays, List.getLast?_concat, List.dropLast_concat]
      simp only [List.headD, List.drop_one]
      rw [hLA]
      simp [hAeq]
    · simp only [collapseRange, concatArrays, List.getLast?_concat, List.dropLast_concat]
      simp only [List.headD, List.drop_one]
      have hab : LA = LB := by rw [← hLA, ← hLB, hpre]
      rw [hLA, hab, houter]
      simp [hBeq]
  · rw [hfold, if_neg hkmax, htakeLA, htakeLB]
    refine ⟨_, rfl, ?_, ?_, ?_, ?_⟩
    · simp [List.getLast?_concat]
    · simp [List.length_take]; omega
    · simp only [collapseRange, concatArrays, List.getLast?_concat, List.dropLast_concat]
      simp only [List.headD, List.drop_one]
      simp [List.take_append_drop, hAeq]
    · simp only [collapseRange, concatArrays, List.getLast?_concat, List.dropLast_concat]
      simp only [List.headD, List.drop_one]
      rw [hpre, houter]
      simp [List.take_append_drop, hBeq]

/-- Witness for C4's amended theorem: two one-segment paths sharing the
offset-free part `/2` and diverging afterwards. -/
theorem buildRange_collapse_roundtrip_witness :
    ∃ r, buildRangeStruct [[stepPart 2, offPart 1 5]] [[stepPart 2, offPart 3 7]] = some r ∧
      r.parent.getLast? = some ([stepPart 2, offPart 1 5].take 1) ∧
      ([stepPart 2, offPart 1 5].take 1).length = 1 ∧
      collapseRange r false = some [[stepPart 2, offPart 1 5]] ∧
      collapseRange r true = some [[stepPart 2, offPart 3 7]] :=
  buildRange_collapse_roundtrip [[stepPart 2, offPart 1 5]] [[stepPart 2, offPart 3 7]]
    [stepPart 2, offPart 1 5] [stepPart 2, offPart 3 7] 1
    (by decide) (by decide) (by decide) (by decide) (by decide) (by decide)
    (by decide) (by decide)

/-! Development for C7: the indexed child list always starts with
`before`, ends with `after`, and keeps element children on even
indices. -/

theorem not_elem_of_text (m : XNode) (h : isTextNode m = true) : isElementNode m = false := by
  cases m <;> simp_all [isTextNode, isElementNode]

theorem elem_of_not_text (m : XNode) (h2 : isTextNode m = false)
    (h : isTextNode m = true ∨ isElementNode m = true) : isElementNode m = true := by
  rcases h with h | h
  · rw [h] at h2
    cases h2
  · exact h

theorem istep_ne_nil (arr : List Entry) (e : Pos × XNode) : istep arr e ≠ [] := by
  unfold istep
  repeat' split
  all_goals simp

theorem foldl_istep_ne_nil (xs : List (Pos × XNode)) :
    ∀ arr, arr ≠ [] → xs.foldl istep arr ≠ [] := by
  induction xs with
  | nil => intro arr h; simpa using h
  | cons x xs ih => intro arr _; simpa using ih (istep arr x) (istep_ne_nil arr x)

/-- Strict alternation between element entries and non-element entries. -/
def altP (l : List Entry) : Prop := l.Chain' fun a b => isElemE a ≠ isElemE b

/-- Invariant of the reduce inside `indexChildNodes`: alternation, no
marker entries, no trailing placeholder, and every single-node entry
holds an element or character-data node. -/
def invP (l : List Entry) : Prop :=
  altP l ∧ (∀ s, Entry.marker s ∉ l) ∧ l.getLast? ≠ some Entry.hole ∧
    (∀ qp m, Entry.one qp m ∈ l → isTextNode m = true ∨ isElementNode m = true)

theorem altP_append_one (l : List Entry) (a : Entry) (h : altP l)
    (hl : ∀ x, l.getLast? = some x → isElemE x ≠ isElemE a) : altP (l ++ [a]) := by
  rw [altP, List.chain'_append]
  refine ⟨h, List.chain'_singleton a, fun x hx y hy => ?_⟩
  simp at hy
  subst hy
  exact hl x (by simpa using hx)

theorem altP_append_two (l : List Entry) (a b : Entry) (h : altP l)
    (hab : isElemE a ≠ isElemE b)
    (hl : ∀ x, l.getLast? = some x → isElemE x ≠ isElemE a) : altP (l ++ [a, b]) := by
  rw [altP, List.chain'_append]
  refine ⟨h, List.chain'_pair.mpr hab, fun x hx y hy => ?_⟩
  simp at hy
  subst hy
  exact hl x (by simpa using hx)

theorem altP_replace_last (l : List Entry) (a b : Entry)
    (h : altP (l ++ [a])) (hab : isElemE b = isElemE a) : altP (l ++ [b]) := by
  rw [altP, List.chain'_append] at h ⊢
  obtain ⟨h1, _, h3⟩ := h
  refine ⟨h1, List.chain'_singleton b, fun x hx y hy => ?_⟩
  simp at hy
  subst hy
  rw [hab]
  exact h3 x hx a (by simp)

theorem istep_inv (arr : List Entry) (e : Pos × XNode)
    (he : isTextNode e.2 = true ∨ isElementNode e.2 = true) (h : invP arr) :
    invP (istep arr e) := by
  obtain ⟨halt, hnm, hnh, hok⟩ := h
  cases harr : arr.getLast? with
  | none =>
    obtain rfl := List.getLast?_eq_none_iff.mp harr
    refine ⟨by simp [istep, altP], by simp [istep], by simp [istep], ?_⟩
    intro qp m hm
    simp [istep] at hm
    first
      | (rw [hm.2]; exact he)
      | (rw [hm]; exact he)
  | some last =>
    have harr2 : arr.dropLast ++ [last] = arr := List.dropLast_append_getLast? last (by simp [harr])
    have hsubm : ∀ x, x ∈ arr.dropLast → x ∈ arr := fun x hx => (List.dropLast_sublist arr).subset hx
    cases last with
    | hole => exact absurd harr hnh
    | marker s => exact absurd (by rw [← harr2]; simp) (hnm s)
    | one qp m =>
      have hm := hok qp m (by rw [← harr2]; simp)
      by_cases hte : isTextNode e.2 = true
      · by_cases htm : isTextNode m = true
        · have heq : istep arr e = arr.dropLast ++ [.chunk [(qp, m), e]] := by
            simp [istep, harr, hte, htm]
          rw [heq]
          refine ⟨?_, ?_, by simp, ?_⟩
          · refine altP_replace_last _ _ _ (by rw [harr2]; exact halt) ?_
            simp [isElemE, not_elem_of_text m htm]
          · intro s hs
            rcases List.mem_append.mp hs with hs | hs
            · exact hnm s (hsubm _ hs)
            · simp at hs
          · intro qp2 m2 hm2
            rcases List.mem_append.mp hm2 with hm2 | hm2
            · exact hok qp2 m2 (hsubm _ hm2)
            · simp at hm2
        · have hml : isElementNode m = true := elem_of_not_text m (by simpa using htm) hm
          have heq : istep arr e = arr ++ [.one e.1 e.2] := by
            simp [istep, harr, hte, htm]
          rw [heq]
          refine ⟨?_, ?_, by simp, ?_⟩
          · refine altP_append_one _ _ halt ?_
            intro x hx
            rw [harr] at hx
            cases hx
            simp [isElemE, hml, not_elem_of_text e.2 hte]
          · intro s hs
            rcases List.mem_append.mp hs with hs | hs
            · exact hnm s hs
            · simp at hs
          · intro qp2 m2 hm2
            rcases List.mem_append.mp hm2 with hm2 | hm2
            · exact hok qp2 m2 hm2
            · simp at hm2
              first
                | (rw [hm2.2]; exact he)
                | (rw [hm2]; exact he)
      · have hteF : isTextNode e.2 = false := by simpa using hte
        have hee : isElementNode e.2 = true := elem_of_not_text e.2 hteF he
        by_cases htm2 : isElementNode m = true
        · have heq : istep arr e = arr ++ [.hole, .one e.1 e.2] := by
            simp [istep, harr, hteF, htm2]
          rw [heq]
          refine ⟨?_, ?_, ?_, ?_⟩
          · refine altP_append_two _ _ _ halt (by simp [isElemE, hee]) ?_
            intro x hx
            rw [harr] at hx
            cases hx
            simp [isElemE, htm2]
          · intro s hs
            rcases List.mem_append.mp hs with hs | hs
            · exact hnm s hs
            · simp at hs
          · have : (arr ++ [Entry.hole, Entry.one e.1 e.2]) =
                (arr ++ [Entry.hole]) ++ [Entry.one e.1 e.2] := by simp
            rw [this, List.getLast?_concat]
            simp
          · intro qp2 m2 hm2
            rcases List.mem_append.mp hm2 with hm2 | hm2
            · exact hok qp2 m2 hm2
            · simp at hm2
              first
                | (rw [hm2.2.2]; exact he)
                | (rw [hm2.2]; exact he)
                | (rw [hm2]; exact he)
        · have heq : istep arr e = arr ++ [.one e.1 e.2] := by
            simp [istep, harr, hteF, htm2]
          rw [heq]
          refine ⟨?_, ?_, by simp, ?_⟩
          · refine altP_append_one _ _ halt ?_
            intro x hx
            rw [harr] at hx
            cases hx
            simp [isElemE, hee, htm2]
          · intro s hs
            rcases List.mem_append.mp hs with hs | hs
            · exact hnm s hs
            · simp at hs
          · intro qp2 m2 hm2
            rcases List.mem_append.mp hm2 with hm2 | hm2
            · exact hok qp2 m2 hm2
            · simp at hm2
              first
                | (rw [hm2.2]; exact he)
                | (rw [hm2]; exact he)
    | chunk ns =>
      by_cases hte : isTextNode e.2 = true
      · have heq : istep arr e = arr.dropLast ++ [.chunk (ns ++ [e])] := by
          simp [istep, harr, hte]
        rw [heq]
        refine ⟨?_, ?_, by simp, ?_⟩
        · refine altP_replace_last _ _ _ (by rw [harr2]; exact halt) (by simp [isElemE])
        · intro s hs
          rcases List.mem_append.mp hs with hs | hs
          · exact hnm s (hsubm _ hs)
          · simp at hs
        · intro qp2 m2 hm2
          rcases List.mem_append.mp hm2 with hm2 | hm2
          · exact hok qp2 m2 (hsubm _ hm2)
          · simp at hm2
      · have hteF : isTextNode e.2 = false := by simpa using hte
        have hee : isElementNode e.2 = true := elem_of_not_text e.2 hteF he
        have heq : istep arr e = arr ++ [.one e.1 e.2] := by
          simp [istep, harr, hteF]
        rw [heq]
        refine ⟨?_, ?_, by simp, ?_⟩
        · refine altP_append_one _ _ halt ?_
          intro x hx
          rw [harr] at hx
          cases hx
          simp [isElemE, hee]
        · intro s hs
          rcases List.mem_append.mp hs with hs | hs
          · exact hnm s hs
          · simp at hs
        · intro qp2 m2 hm2
          rcases List.mem_append.mp hm2 with hm2 | hm2
          · exact hok qp2 m2 hm2
          · simp at hm2
            first
              | (rw [hm2.2]; exact he)
              | (rw [hm2]; exact he)

theorem foldl_istep_inv (xs : List (Pos × XNode))
    (hxs : ∀ pn ∈ xs, isTextNode pn.2 = true ∨ isElementNode pn.2 = true) :
    ∀ arr, invP arr → invP (xs.foldl istep arr) := by
  induction xs with
  | nil => intro arr h; simpa using h
  | cons x xs ih =>
    intro arr h
    simp only [List.foldl_cons]
    exact ih (fun pn hpn => hxs pn (by simp [hpn])) _ (istep_inv arr x (hxs x (by simp)) h)

theorem gcnList_nodes_aux (filter : Option (XNode → ℕ)) :
    ∀ (N : ℕ) (cs : List XNode), sizeOf cs ≤ N → ∀ (p : Pos) (i : ℕ),
      ∀ pn ∈ gcnList filter cs p i, isTextNode pn.2 = true ∨ isElementNode pn.2 = true := by
  intro N
  induction N with
  | zero =>
    intro cs hsz p i pn hpn
    cases cs with
    | nil => simp [gcnList] at hpn
    | cons c rest => simp [List.cons.sizeOf_spec] at hsz <;> omega
  | succ N ih =>
    intro cs hsz p i pn hpn
    cases cs with
    | nil => simp [gcnList] at hpn
    | cons c rest =>
      simp only [List.cons.sizeOf_spec] at hsz
      rw [gcnList.eq_def] at hpn
      simp only [] at hpn
      rcases List.mem_append.mp hpn with hpn | hpn
      · by_cases htc : (isTextNode c || isElementNode c) = true
        · rw [if_pos htc] at hpn
          cases filter with
          | none =>
            simp at hpn
            subst hpn
            simpa using htc
          | some f =>
            dsimp only at hpn
            by_cases h2 : f c = 2
            · rw [if_pos h2] at hpn
              simp at hpn
            · rw [if_neg h2] at hpn
              by_cases h3 : f c = 3
              · rw [if_pos h3] at hpn
                have hcs : sizeOf c.childNodes ≤ N := by
                  have := sizeOf_childNodes_le c
                  omega
                exact ih c.childNodes hcs (p ++ [i]) 0 pn hpn
              · rw [if_neg h3] at hpn
                simp at hpn
                subst hpn
                simpa using htc
        · rw [if_neg htc] at hpn
          simp at hpn
      · exact ih rest (by omega) p (i + 1) pn hpn

theorem gcnList_nodes (filter : Option (XNode → ℕ)) (cs : List XNode) (p : Pos) (i : ℕ) :
    ∀ pn ∈ gcnList filter cs p i, isTextNode pn.2 = true ∨ isElementNode pn.2 = true :=
  gcnList_nodes_aux filter (sizeOf cs) cs (le_refl _) p i

theorem altP_parity (l : List Entry) (h : altP l) :
    ∀ (i : ℕ) (hi : i < l.length) (h0 : 0 < l.length),
      isElemE (l.get ⟨i, hi⟩) = (decide (i % 2 = 0) == isElemE (l.get ⟨0, h0⟩)) := by
  intro i
  induction i with
  | zero => intro hi h0; simp
  | succ i ih =>
    intro hi h0
    have hne := List.chain'_iff_get.mp h i (by omega)
    have hih := ih (by omega) h0
    have hflip : isElemE (l.get ⟨i + 1, hi⟩) = !isElemE (l.get ⟨i, by omega⟩) := by
      cases hb : isElemE (l.get ⟨i, by omega⟩) <;>
        cases hb2 : isElemE (l.get ⟨i + 1, hi⟩) <;> simp_all
    rw [hflip, hih]
    rcases Nat.mod_two_eq_zero_or_one i with h2 | h2 <;>
      · have h3 : (i + 1) % 2 = 1 - i % 2 := by omega
        cases isElemE (l.get ⟨0, h0⟩) <;> simp [h2, h3]

theorem elem_index_parity (pre c post : List Entry) (halt : altP c)
    (hpar : ∀ h0 : 0 < c.length,
      (pre.length + (if isElemE (c.get ⟨0, h0⟩) = true then 0 else 1)) % 2 = 0)
    (hpre : ∀ e ∈ pre, isElemE e = false) (hpost : ∀ e ∈ post, isElemE e = false) :
    ∀ (i : ℕ) (hi : i < (pre ++ (c ++ post)).length),
      isElemE ((pre ++ (c ++ post)).get ⟨i, hi⟩) = true → i % 2 = 0 := by
  intro i hi helem
  rw [List.get_eq_getElem] at helem
  by_cases h1 : i < pre.length
  · rw [List.getElem_append_left h1] at helem
    have hmem := List.getElem_mem h1
    rw [hpre _ hmem] at helem
    cases helem
  · have h1b : pre.length ≤ i := by omega
    rw [List.getElem_append_right h1b] at helem
    by_cases h2 : i - pre.length < c.length
    · rw [List.getElem_append_left h2] at helem
      have h0 : 0 < c.length := by omega
      have hp := altP_parity c halt (i - pre.length) h2 h0
      rw [List.get_eq_getElem] at hp
      rw [helem] at hp
      have hpar2 := hpar h0
      by_cases hc0 : isElemE (c.get ⟨0, h0⟩) = true
      · rw [hc0] at hp
        rw [if_pos hc0] at hpar2
        simp at hp
        omega
      · have hc0b : isElemE (c.get ⟨0, h0⟩) = false := by simpa using hc0
        rw [hc0b] at hp
        rw [if_neg hc0] at hpar2
        simp at hp
        omega
    · have h2b : c.length ≤ i - pre.length := by omega
      rw [List.getElem_append_right h2b] at helem
      have hmem := List.getElem_mem (l := post)
        (n := i - pre.length - c.length) (by simp at hi; omega)
      rw [hpost _ hmem] at helem
      cases helem

/-- C7: for every node with at least one element or character-data child
after filtering, the indexed slot list exists (no exception), has the
`before` marker at index 0, the `after` marker at the maximal index, and
every element child sits at an even index. -/
theorem indexChildNodes_markers_and_parity (n : XNode) (p : Pos)
    (filter : Option (XNode → ℕ)) (h : getChildNodesX filter n p ≠ []) :
    ∃ slots, indexChildNodesX n p filter = some slots ∧
      slots.head? = some (.marker "before") ∧
      slots.getLast? = some (.marker "after") ∧
      ∀ (i : ℕ) (hi : i < slots.length), isElemE (slots.get ⟨i, hi⟩) = true → i % 2 = 0 := by
  have hcne : (getChildNodesX filter n p).foldl istep [] ≠ [] := by
    cases hx : getChildNodesX filter n p with
    | nil => exact absurd hx h
    | cons y ys =>
      rw [List.foldl_cons]
      exact foldl_istep_ne_nil ys _ (istep_ne_nil [] y)
  have hinv : invP ((getChildNodesX filter n p).foldl istep []) :=
    foldl_istep_inv _ (gcnList_nodes filter _ _ _) []
      ⟨by simp [altP], by simp, by simp, by simp⟩
  unfold indexChildNodesX
  dsimp only
  generalize hgen : (getChildNodesX filter n p).foldl istep [] = c at hcne hinv ⊢
  obtain ⟨h0, restl, rfl⟩ : ∃ h0 restl, c = h0 :: restl := by
    cases c with
    | nil => exact absurd rfl hcne
    | cons a l => exact ⟨a, l, rfl⟩
  obtain ⟨halt, hnm, hnh, hok⟩ := hinv
  dsimp only [List.head?]
  set c := h0 :: restl with hc
  set c1 := if isElemE h0 = true then Entry.marker "first" :: c else c with hc1
  set B : List Entry := if (c1.getLast?.map isElemE).getD false = true
    then [Entry.marker "last"] else [] with hB
  have hc2 : (if (c1.getLast?.map isElemE).getD false = true
      then c1 ++ [Entry.marker "last"] else c1) = c1 ++ B := by
    by_cases hcond : (c1.getLast?.map isElemE).getD false = true <;> simp [hB, hcond]
  set A : List Entry := if isElemE h0 = true then [Entry.marker "first"] else [] with hA
  have hc1b : c1 = A ++ c := by
    by_cases hh : isElemE h0 = true <;> simp [hc1, hA, hh]
  rw [hc2]
  have hslots : Entry.marker "before" :: ((c1 ++ B) ++ [Entry.marker "after"]) =
      (Entry.marker "before" :: A) ++ (c ++ (B ++ [Entry.marker "after"])) := by
    rw [hc1b]
    simp
  refine ⟨_, rfl, by simp, ?_, ?_⟩
  · have : Entry.marker "before" :: ((c1 ++ B) ++ [Entry.marker "after"]) =
        (Entry.marker "before" :: (c1 ++ B)) ++ [Entry.marker "after"] := by simp
    rw [this, List.getLast?_concat]
  · rw [hslots]
    refine elem_index_parity (Entry.marker "before" :: A) c (B ++ [Entry.marker "after"])
      halt ?_ ?_ ?_
    · intro h0l
      have hget0 : c.get ⟨0, h0l⟩ = h0 := rfl
      rw [hget0]
      by_cases hh : isElemE h0 = true <;> simp [hA, hh]
    · intro e he
      rcases List.mem_cons.mp he with rfl | he2
      · rfl
      · by_cases hh : isElemE h0 = true
        · rw [hA, if_pos hh] at he2
          simp at he2
          rw [he2]
          rfl
        · rw [hA, if_neg hh] at he2
          simp at he2
    · intro e he
      rcases List.mem_append.mp he with he2 | he2
      · by_cases hcond : (c1.getLast?.map isElemE).getD false = true
        · rw [hB, if_pos hcond] at he2
          simp at he2
          rw [he2]
          rfl
        · rw [hB, if_neg hcond] at he2
          simp at he2
      · simp at he2
        rw [he2]
        rfl

/-- Witness for C7 at a root with one element child and one text
child. -/
theorem indexChildNodes_markers_and_parity_witness :
    (getChildNodesX none (XNode.elem "r" [XNode.elem "a" [], XNode.text "t"]) [] ≠ []) ∧
    (∃ slots,
      indexChildNodesX (XNode.elem "r" [XNode.elem "a" [], XNode.text "t"]) [] none =
        some slots ∧
      slots.head? = some (.marker "before") ∧
      slots.getLast? = some (.marker "after") ∧
      ∀ (i : ℕ) (hi : i < slots.length), isElemE (slots.get ⟨i, hi⟩) = true → i % 2 = 0) := by
  have hne : getChildNodesX none (XNode.elem "r" [XNode.elem "a" [], XNode.text "t"]) [] ≠ [] := by
    simp [getChildNodesX, gcnList, XNode.childNodes, isTextNode, isElementNode]
  exact ⟨hne, indexChildNodes_markers_and_parity _ _ none hne⟩

/-- Ids along the ancestor chain of a position (from the child of the
document element down to the node itself): the `id` property of each
node on the way. -/
def ancestorIds (root : XNode) (p : Pos) : List (Option String) :=
  (List.range p.length).map fun j => (nodeAt root (p.take (j + 1))).bind XNode.jsId

theorem ancestorIds_dropLast (root : XNode) (p : Pos) (hp : p ≠ []) :
    ancestorIds root p = ancestorIds root p.dropLast ++ [(nodeAt root p).bind XNode.jsId] := by
  unfold ancestorIds
  have hlen : p.length = p.dropLast.length + 1 := by
    rw [List.length_dropLast]
    cases p
    · exact absurd rfl hp
    · simp
  rw [hlen, List.range_succ, List.map_append]
  congr 1
  · apply List.map_congr_left
    intro j hj
    simp at hj
    have htk : p.dropLast.take (j + 1) = p.take (j + 1) := by
      rw [List.dropLast_eq_take, List.take_take]
      congr 1
      omega
    rw [htk]
  · have htk : p.take (p.length - 1 + 1) = p := by
      have hl2 : p.length - 1 + 1 = p.length := by
        cases p
        · exact absurd rfl hp
        · simp
      rw [hl2, List.take_length]
    simp [htk]

theorem nodeToParts_ids_sublist_aux :
    ∀ (N : ℕ) (p : Pos), p.length ≤ N →
      ∀ (root : XNode) (offset : Option JNum) (filter : Option (XNode → ℕ))
        (parts : List IPart),
        nodeToParts root p offset filter = some parts →
        List.Sublist (parts.map IPart.id) (ancestorIds root p) := by
  intro N
  induction N with
  | zero =>
    intro p hp root offset filter parts h
    obtain rfl : p = [] := List.length_eq_zero.mp (by omega)
    simp [nodeToParts] at h
  | succ N ih =>
    intro p hp root offset filter parts h
    cases p with
    | nil => simp [nodeToParts] at h
    | cons a restp =>
      simp only [nodeToParts] at h
      cases hnode : nodeAt root (a :: restp) with
      | none => rw [hnode] at h; simp at h
      | some node =>
      cases hparent : nodeAt root ((a :: restp).dropLast) with
      | none => rw [hnode, hparent] at h; simp at h
      | some parentNode =>
      rw [hnode, hparent] at h
      dsimp only at h
      cases hidx : indexChildNodesX parentNode ((a :: restp).dropLast) filter with
      | none => rw [hidx] at h; simp at h
      | some indexed =>
      rw [hidx] at h
      dsimp only at h
      by_cases hpp : (a :: restp).dropLast = []
      · rw [if_pos hpp] at h
        simp only [Option.map_some'] at h
        obtain rfl := Option.some.inj h
        obtain rfl : restp = [] := by
          cases restp with
          | nil => rfl
          | cons b t => simp [List.dropLast] at hpp
        have hanc : ancestorIds root [a] = [node.jsId] := by
          unfold ancestorIds
          simp [hnode]
        rw [hanc]
        refine List.Sublist.trans (List.Sublist.map _ (List.filter_sublist _)) ?_
        simp
      · rw [if_neg hpp] at h
        cases hrec : nodeToParts root ((a :: restp).dropLast) none filter with
        | none => rw [hrec] at h; simp at h
        | some parts0 =>
        rw [hrec] at h
        simp only [Option.map_some'] at h
        obtain rfl := Option.some.inj h
        have hih := ih ((a :: restp).dropLast) (by simp [List.length_dropLast] at hp ⊢; omega)
          root none filter parts0 hrec
        have hanc := ancestorIds_dropLast root (a :: restp) (by simp)
        rw [hanc, hnode]
        refine List.Sublist.trans (List.Sublist.map _ (List.filter_sublist _)) ?_
        rw [List.map_append]
        exact List.Sublist.append hih (by simp)

/-- C9 (amended): every Part of a derived path carries the `id` property
of its corresponding node on the ancestor chain — ids are not restricted
to the terminal Part.  Formally, the id column of `nodeToParts` is a
sublist of the chain of ancestor ids (a sublist because parts whose node
was not found in its parent's slot list are filtered out). -/
theorem nodeToParts_ids_from_ancestors (root : XNode) (p : Pos) (offset : Option JNum)
    (filter : Option (XNode → ℕ)) (parts : List IPart)
    (h : nodeToParts root p offset filter = some parts) :
    List.Sublist (parts.map IPart.id) (ancestorIds root p) :=
  nodeToParts_ids_sublist_aux p.length p (le_refl _) root offset filter parts h

/-- Witness for C9's amended theorem on the two-level tree with ids
`a` and `b`. -/
theorem nodeToParts_ids_from_ancestors_witness :
    List.Sublist
      (([⟨some "a", 2, none⟩, ⟨some "b", 2, none⟩] : List IPart).map IPart.id)
      (ancestorIds (XNode.elem "" [XNode.elem "a" [XNode.elem "b" []]]) [0, 0]) :=
  nodeToParts_ids_from_ancestors (XNode.elem "" [XNode.elem "a" [XNode.elem "b" []]])
    [0, 0] none none _
    (by simp [nodeToParts, indexChildNodesX, getChildNodesX, gcnList, istep, nodeAt,
      XNode.childNodes, isTextNode, isElementNode, isElemE, entryContains, XNode.jsId])

/-! Development for C6: which assertion tokens become ids. -/

/-- Well-formedness of a token as the tokenizer produces it: bare tags
are `!` or `,`, numeric tags are `/ : ~ @`, string tags are `[` or a
`;name` parameter. -/
def wfTok : TToken → Bool
  | .sym s => s = "!" || s = ","
  | .num tag _ => tag = "/" || tag = ":" || tag = "~" || tag = "@"
  | .str tag _ => tag = "[" || tag.toList.head? = some ';'

/-- The values the tokenizer's `state` variable ranges over. -/
def stateOK (st : Option String) : Prop :=
  match st with
  | none => True
  | some s => s = "/" ∨ s = ":" ∨ s = "~" ∨ s = "@" ∨ s = "[" ∨ s = "!" ∨ s = "," ∨
      s.toList.head? = some ';'

theorem wf_push (s : TkState) (tok : TToken) (h1 : ∀ t ∈ s.tokens, wfTok t = true)
    (htok : wfTok tok = true) : ∀ t ∈ (tkPush s tok).tokens, wfTok t = true := by
  intro t ht
  simp [tkPush] at ht
  rcases ht with ht | rfl
  · exact h1 t ht
  · exact htok

theorem stateOK_some (st : String)
    (h : st = "/" ∨ st = ":" ∨ st = "~" ∨ st = "@" ∨ st = "[" ∨ st = "!" ∨ st = "," ∨
      st.toList.head? = some ';') : stateOK (some st) := h

theorem tkMain_wf (s : TkState) (ch : Option Char)
    (h1 : ∀ t ∈ s.tokens, wfTok t = true) (h2 : stateOK s.state) :
    (∀ t ∈ (tkMain s ch).1.tokens, wfTok t = true) ∧ stateOK (tkMain s ch).1.state := by
  rw [tkMain.eq_def]
  split
  · exact ⟨wf_push s _ h1 rfl, trivial⟩
  · exact ⟨wf_push s _ h1 rfl, trivial⟩
  · rename_i st hne1 hne2 heq
    rw [heq] at h2
    simp only [stateOK] at h2
    split
    · rename_i hd
      split
      · exact ⟨h1, heq.symm ▸ stateOK_some st h2⟩
      · exact ⟨wf_push s _ h1 (by rcases hd with rfl | rfl <;> rfl), trivial⟩
    · split
      · split
        · exact ⟨h1, heq.symm ▸ stateOK_some st h2⟩
        · exact ⟨wf_push s _ h1 rfl, trivial⟩
      · split
        · split
          · exact ⟨wf_push s _ h1 rfl, stateOK_some "@" (by decide)⟩
          · split
            · exact ⟨h1, heq.symm ▸ stateOK_some st h2⟩
            · exact ⟨wf_push s _ h1 rfl, trivial⟩
        · split
          · split
            · exact ⟨wf_push s _ h1 rfl, stateOK_some ";" (by decide)⟩
            · split
              · exact ⟨wf_push s _ h1 rfl, stateOK_some "[" (by decide)⟩
              · split
                · exact ⟨wf_push s _ h1 rfl, trivial⟩
                · exact ⟨h1, heq.symm ▸ stateOK_some st h2⟩
          · split
            · rename_i hsemi
              have hwtok : wfTok (TToken.str st s.value) = true := by
                have hd : st.data.head? = some ';' := by simpa [String.toList] using hsemi
                simp [wfTok, hd]
              split
              · refine ⟨h1, stateOK_some _ ?_⟩
                right; right; right; right; right; right; right
                simp [String.toList, String.data_append]
              · split
                · exact ⟨wf_push s _ h1 hwtok, stateOK_some ";" (by decide)⟩
                · split
                  · exact ⟨wf_push s _ h1 hwtok, trivial⟩
                  · exact ⟨h1, heq.symm ▸ stateOK_some st h2⟩
            · exact ⟨h1, heq.symm ▸ stateOK_some st h2⟩
  · exact ⟨h1, h2⟩

theorem tkStep_wf (s : TkState) (ch : Option Char)
    (h1 : ∀ t ∈ s.tokens, wfTok t = true) (h2 : stateOK s.state) :
    (∀ t ∈ (tkStep s ch).tokens, wfTok t = true) ∧ stateOK (tkStep s ch).state := by
  unfold tkStep
  dsimp only
  split
  · exact ⟨h1, h2⟩
  · obtain ⟨g1, g2⟩ := tkMain_wf s ch h1 h2
    split
    · exact ⟨g1, g2⟩
    · split
      · rename_i hsp
        refine ⟨g1, ?_⟩
        simp only [specialCh, ceq, Bool.or_eq_true, decide_eq_true_eq] at hsp
        rcases hsp with (((((rfl | rfl) | rfl) | rfl) | rfl) | rfl) | rfl <;>
          exact stateOK_some _ (by decide)
      · exact ⟨g1, g2⟩

theorem tokenizer_wf (str : String) : ∀ t ∈ tokenizer str, wfTok t = true := by
  unfold tokenizer
  suffices H : ∀ (chars : List (Option Char)) (s0 : TkState),
      (∀ t ∈ s0.tokens, wfTok t = true) → stateOK s0.state →
      ∀ t ∈ (chars.foldl tkStep s0).tokens, wfTok t = true by
    exact H _ {} (by simp) trivial
  intro chars
  induction chars with
  | nil => intro s0 hh1 _ t ht; exact hh1 t ht
  | cons ch chars ih =>
    intro s0 hh1 hh2
    simp only [List.foldl_cons]
    obtain ⟨g1, g2⟩ := tkStep_wf s0 ch hh1 hh2
    exact ih _ g1 g2

/-- Provenance of an id assertion: relative to parser state `st` at the
start of the remaining token stream `ts`, the value `v` can be installed
as an id only by an assertion token that follows a `/` Step token with
nothing but empty assertion tokens in between (or the state is already
`"/"` on entry). -/
def idProv (st : String) (ts : List TToken) (v : String) : Prop :=
  (∃ pre w l tail, ts = pre ++ [TToken.num "/" w] ++ l ++ [TToken.str "[" v] ++ tail ∧
      ∀ x ∈ l, x = TToken.str "[" "") ∨
  (st = "/" ∧ ∃ l tail, ts = l ++ [TToken.str "[" v] ++ tail ∧ ∀ x ∈ l, x = TToken.str "[" "")

theorem idProv_cons_fst (st st2 : String) (t : TToken) (ts : List TToken) (v : String)
    (h : idProv st2 ts v) (hne : st2 ≠ "/") : idProv st (t :: ts) v := by
  rcases h with ⟨pre, w, l, tail, hts, hl⟩ | ⟨hst, _⟩
  · exact Or.inl ⟨t :: pre, w, l, tail, by simp [hts], hl⟩
  · exact absurd hst hne

theorem idProv_cons_slash (st : String) (w : JNum) (ts : List TToken) (v : String)
    (h : idProv "/" ts v) : idProv st (TToken.num "/" w :: ts) v := by
  rcases h with ⟨pre, w2, l, tail, hts, hl⟩ | ⟨_, l, tail, hts, hl⟩
  · exact Or.inl ⟨TToken.num "/" w :: pre, w2, l, tail, by simp [hts], hl⟩
  · exact Or.inl ⟨[], w, l, tail, by simp [hts], hl⟩

theorem idProv_cons_empty (ts : List TToken) (v : String)
    (h : idProv "/" ts v) : idProv "/" (TToken.str "[" "" :: ts) v := by
  rcases h with ⟨pre, w, l, tail, hts, hl⟩ | ⟨_, l, tail, hts, hl⟩
  · exact Or.inl ⟨TToken.str "[" "" :: pre, w, l, tail, by simp [hts], hl⟩
  · refine Or.inr ⟨rfl, TToken.str "[" "" :: l, tail, by simp [hts], ?_⟩
    intro x hx
    rcases List.mem_cons.mp hx with rfl | hx
    · rfl
    · exact hl x hx

theorem mem_of_getLast_some (xs : List TPart) (a : TPart) (h : xs.getLast? = some a) :
    a ∈ xs := by
  rw [List.getLast?_eq_some_iff] at h
  obtain ⟨l2, rfl⟩ := h
  simp

theorem setLast_eq_some (xs ys : List TPart) (f : TPart → TPart)
    (h : setLast xs f = some ys) :
    ∃ x0, xs.getLast? = some x0 ∧ ys = xs.dropLast ++ [f x0] := by
  unfold setLast at h
  cases hlast : xs.getLast? with
  | none => rw [hlast] at h; exact Option.noConfusion h
  | some x0 =>
    rw [hlast] at h
    injection h with h
    exact ⟨x0, rfl, h.symm⟩

theorem setLast_mem_id (xs ys : List TPart) (f : TPart → TPart)
    (h : setLast xs f = some ys) (hpres : ∀ x, (f x).id = x.id) :
    ∀ q ∈ ys, ∃ q2 ∈ xs, q2.id = q.id := by
  obtain ⟨x0, hlast, rfl⟩ := setLast_eq_some xs ys f h
  intro q hq
  rcases List.mem_append.mp hq with hq | hq
  · exact ⟨q, (List.dropLast_sublist xs).subset hq, rfl⟩
  · have hqe : q = f x0 := List.mem_singleton.mp hq
    subst hqe
    exact ⟨x0, mem_of_getLast_some xs x0 hlast, (hpres x0).symm⟩

theorem setLast_mem_id_set (xs ys : List TPart) (v : String)
    (h : setLast xs (fun l => { l with id := some v }) = some ys) :
    ∀ q ∈ ys, q.id = some v ∨ ∃ q2 ∈ xs, q2.id = q.id := by
  obtain ⟨x0, hlast, rfl⟩ := setLast_eq_some xs ys _ h
  intro q hq
  rcases List.mem_append.mp hq with hq | hq
  · exact Or.inr ⟨q, (List.dropLast_sublist xs).subset hq, rfl⟩
  · have hqe : q = _ := List.mem_singleton.mp hq
    subst hqe
    exact Or.inl rfl

theorem parserRun_idProv (ts : List TToken) :
    ∀ acc res, (∀ t ∈ ts, wfTok t = true) → parserRun acc ts = some res →
      ∀ p ∈ res.1, ∀ v, p.id = some v →
        (∃ q ∈ acc.1, q.id = some v) ∨ (v ≠ "" ∧ idProv acc.2 ts v) := by
  induction ts with
  | nil =>
    intro acc res hwf hrun p hp v hid
    simp only [parserRun] at hrun
    injection hrun with hrun
    subst hrun
    exact Or.inl ⟨p, hp, hid⟩
  | cons t ts ih =>
    intro acc res hwf hrun p hp v hid
    simp only [parserRun] at hrun
    cases hstep : parserStep acc t with
    | none => rw [hstep] at hrun; exact Option.noConfusion hrun
    | some acc2 =>
      rw [hstep] at hrun
      have hwf2 : ∀ x ∈ ts, wfTok x = true := fun x hx => hwf x (List.mem_cons_of_mem t hx)
      have hwft : wfTok t = true := hwf t (List.mem_cons_self t ts)
      have IH := ih acc2 res hwf2 hrun p hp v hid
      rw [parserStep.eq_def] at hstep
      split at hstep
      · -- Step token: a fresh part with no id is appended, state becomes "/"
        injection hstep with hstep
        subst hstep
        rcases IH with ⟨q, hq, hqid⟩ | ⟨hv, hprov⟩
        · rcases List.mem_append.mp hq with hq | hq
          · exact Or.inl ⟨q, hq, hqid⟩
          · have hqe : q = newPart _ := List.mem_singleton.mp hq
            rw [hqe] at hqid
            exact absurd hqid (by simp [newPart])
        · exact Or.inr ⟨hv, idProv_cons_slash _ _ _ _ hprov⟩
      · -- offset token
        rcases Option.map_eq_some'.mp hstep with ⟨ys, hys, hacc2⟩
        subst hacc2
        rcases IH with ⟨q, hq, hqid⟩ | ⟨hv, hprov⟩
        · obtain ⟨q2, hq2, hq2id⟩ := setLast_mem_id _ _ _ hys (fun x => rfl) q hq
          exact Or.inl ⟨q2, hq2, hq2id.trans hqid⟩
        · exact Or.inr ⟨hv, idProv_cons_fst _ ":" _ _ _ hprov (by decide)⟩
      · -- temporal token
        rcases Option.map_eq_some'.mp hstep with ⟨ys, hys, hacc2⟩
        subst hacc2
        rcases IH with ⟨q, hq, hqid⟩ | ⟨hv, hprov⟩
        · obtain ⟨q2, hq2, hq2id⟩ := setLast_mem_id _ _ _ hys (fun x => rfl) q hq
          exact Or.inl ⟨q2, hq2, hq2id.trans hqid⟩
        · exact Or.inr ⟨hv, idProv_cons_fst _ "~" _ _ _ hprov (by decide)⟩
      · -- spatial token
        rcases Option.map_eq_some'.mp hstep with ⟨ys, hys, hacc2⟩
        subst hacc2
        rcases IH with ⟨q, hq, hqid⟩ | ⟨hv, hprov⟩
        · obtain ⟨q2, hq2, hq2id⟩ := setLast_mem_id _ _ _ hys (fun x => rfl) q hq
          exact Or.inl ⟨q2, hq2, hq2id.trans hqid⟩
        · exact Or.inr ⟨hv, idProv_cons_fst _ "@" _ _ _ hprov (by decide)⟩
      · -- side-bias token
        rcases Option.map_eq_some'.mp hstep with ⟨ys, hys, hacc2⟩
        subst hacc2
        rcases IH with ⟨q, hq, hqid⟩ | ⟨hv, hprov⟩
        · obtain ⟨q2, hq2, hq2id⟩ := setLast_mem_id _ _ _ hys (fun x => rfl) q hq
          exact Or.inl ⟨q2, hq2, hq2id.trans hqid⟩
        · exact Or.inr ⟨hv, idProv_cons_fst _ ";s" _ _ _ hprov (by decide)⟩
      · -- assertion token
        rename_i v2
        split at hstep
        · -- id branch: state is "/" and the payload is non-empty
          rename_i hcond
          rcases Option.map_eq_some'.mp hstep with ⟨ys, hys, hacc2⟩
          subst hacc2
          rcases IH with ⟨q, hq, hqid⟩ | ⟨hv, hprov⟩
          · rcases setLast_mem_id_set _ _ _ hys q hq with hset | ⟨q2, hq2, hq2id⟩
            · have hv21 : v2 = v := Option.some.inj (hset.symm.trans hqid)
              subst hv21
              exact Or.inr ⟨hcond.2, Or.inr ⟨hcond.1, [], ts, rfl, by simp⟩⟩
            · exact Or.inl ⟨q2, hq2, hq2id.trans hqid⟩
          · exact Or.inr ⟨hv, idProv_cons_fst _ "[" _ _ _ hprov (by decide)⟩
        · -- text branch: the state is left untouched
          rename_i hcond
          rcases Option.map_eq_some'.mp hstep with ⟨ys, hys, hacc2⟩
          subst hacc2
          rcases IH with ⟨q, hq, hqid⟩ | ⟨hv, hprov⟩
          · obtain ⟨q2, hq2, hq2id⟩ := setLast_mem_id _ _ _ hys (fun x => rfl) q hq
            exact Or.inl ⟨q2, hq2, hq2id.trans hqid⟩
          · refine Or.inr ⟨hv, ?_⟩
            by_cases hsl : acc.2 = "/"
            · have hv2 : v2 = "" := by
                by_contra hne2
                exact hcond ⟨hsl, hne2⟩
              subst hv2
              rw [hsl] at hprov ⊢
              exact idProv_cons_empty ts v hprov
            · exact idProv_cons_fst _ acc.2 _ _ _ hprov hsl
      · -- symbol token: the state becomes the tag, never "/"
        rename_i t2
        injection hstep with hstep
        subst hstep
        rcases IH with ⟨q, hq, hqid⟩ | ⟨hv, hprov⟩
        · exact Or.inl ⟨q, hq, hqid⟩
        · simp only [wfTok, Bool.or_eq_true, decide_eq_true_eq] at hwft
          refine Or.inr ⟨hv, idProv_cons_fst _ t2 _ _ _ hprov ?_⟩
          rcases hwft with rfl | rfl <;> decide
      · -- other numeric tag: excluded from being "/" by the match order
        rename_i t2 w2 g1 g2 g3 g4
        injection hstep with hstep
        subst hstep
        rcases IH with ⟨q, hq, hqid⟩ | ⟨hv, hprov⟩
        · exact Or.inl ⟨q, hq, hqid⟩
        · exact Or.inr ⟨hv, idProv_cons_fst _ t2 _ _ _ hprov fun hne => g1 hne⟩
      · -- other string tag: well-formed tags start with a semicolon here
        rename_i t2 v3 gA gB
        injection hstep with hstep
        subst hstep
        rcases IH with ⟨q, hq, hqid⟩ | ⟨hv, hprov⟩
        · exact Or.inl ⟨q, hq, hqid⟩
        · simp only [wfTok, Bool.or_eq_true, decide_eq_true_eq] at hwft
          refine Or.inr ⟨hv, idProv_cons_fst _ t2 _ _ _ hprov ?_⟩
          rcases hwft with rfl | hsemi
          · decide
          · intro hne
            subst hne
            exact absurd hsemi (by decide)

theorem parser_idProv (ts : List TToken) (parts : List TPart) (p : TPart) (v : String)
    (hwf : ∀ t ∈ ts, wfTok t = true) (hp : parser ts = some parts) (hmem : p ∈ parts)
    (hid : p.id = some v) :
    v ≠ "" ∧ ∃ pre w l tail,
      ts = pre ++ [TToken.num "/" w] ++ l ++ [TToken.str "[" v] ++ tail ∧
      ∀ x ∈ l, x = TToken.str "[" "" := by
  unfold parser at hp
  rcases Option.map_eq_some'.mp hp with ⟨res, hres, hparts⟩
  subst hparts
  rcases parserRun_idProv ts ([], "") res hwf hres p hmem v hid with ⟨q, hq, _⟩ | ⟨hv, hprov⟩
  · exact absurd hq (by simp)
  · rcases hprov with hfst | ⟨hsl, _⟩
    · exact ⟨hv, hfst⟩
    · exact absurd hsl (by decide)

/-- C6: the claim states that every Part carries at most one of `id` and
`text`, and that an assertion becomes the id only when it immediately
follows a Step with a non-empty payload and no comma extension.  The
amended rule proved here: whenever `parse`-level tokenization and parsing
install `v` as a Part's id, `v` is non-empty and the installing assertion
token follows a `/` Step token with only empty assertion tokens in
between — but a comma extension does not revoke the id (the extension is
appended to `text` instead, as the counterexample shows). -/
theorem parser_id_assertion_rule (str : String) (parts : List TPart) (p : TPart) (v : String)
    (hp : parser (tokenizer str) = some parts) (hmem : p ∈ parts) (hid : p.id = some v) :
    v ≠ "" ∧ ∃ pre w l tail,
      tokenizer str = pre ++ [TToken.num "/" w] ++ l ++ [TToken.str "[" v] ++ tail ∧
      ∀ x ∈ l, x = TToken.str "[" "" :=
  parser_idProv (tokenizer str) parts p v (tokenizer_wf str) hp hmem hid

theorem parser_id_assertion_rule_witness :
    "x" ≠ "" ∧ ∃ pre w l tail,
      tokenizer "/4[x]" = pre ++ [TToken.num "/" w] ++ l ++ [TToken.str "[" "x"] ++ tail ∧
      ∀ t2 ∈ l, t2 = TToken.str "[" "" :=
  parser_id_assertion_rule "/4[x]"
    [{ index := .q 4, offset := none, id := some "x" }]
    { index := .q 4, offset := none, id := some "x" } "x"
    (by decide) (by decide) (by decide)

end EpubCfi
